import Mathlib

/-!
Verification of the `pokemon-repl` repository's cache subsystem and REPL
catch logic, shallowly embedded from the Go sources.

Time is modelled as `Nat` (Go `time.Time` / `time.Duration`); byte payloads
(`[]byte`) as `List Nat`; the Go `map[string]entry` as an association list
in which an assignment removes any previous binding for the key, matching
Go map-update semantics.  The mutex serializes `Add`, `Get` and the reaper
sweep in the Go code, so concurrent executions are modelled as arbitrary
interleavings of these atomic operations (a trace of `Op`s folded over the
state).
-/

namespace PokemonRepl

/-- `entry` from `internal/cache`: a single cached item with its creation
timestamp (`createdAt time.Time; data []byte`). -/
structure entry where
  createdAt : Nat
  data : List Nat
deriving DecidableEq, Repr

/-- `Cache` from `internal/cache`: the entry map plus the configured ttl.
The `sync.RWMutex` field serializes operations and carries no logical
state, so it is not represented. -/
structure Cache where
  entries : List (String × entry)
  ttl : Nat
deriving DecidableEq, Repr

/-- `New(ttl)`: constructs an empty cache with the given ttl (the
`go c.reapLoop()` side effect is modelled by the sweep schedule below). -/
def New (ttl : Nat) : Cache := ⟨[], ttl⟩

/-- `Cache.Add(key, data)`: Go map assignment `c.entries[key] = entry{now, data}`;
any previous binding for `key` is replaced. -/
def Cache.Add (c : Cache) (key : String) (data : List Nat) (now : Nat) : Cache :=
  { c with entries := (key, ⟨now, data⟩) :: c.entries.filter (fun p => !(p.1 == key)) }

/-- `Cache.Get(key)`: map lookup; returns `(e.data, true)` when present and
`(nil, false)` otherwise.  It reads no clock. -/
def Cache.Get (c : Cache) (key : String) : Option (List Nat) × Bool :=
  match c.entries.find? (fun p => p.1 == key) with
  | none => (none, false)
  | some p => (some p.2.data, true)

/-- One iteration of the reaper's sweep in `reapLoop`: delete every entry
with `now - createdAt > ttl`, keep the rest. -/
def Cache.sweep (c : Cache) (now : Nat) : Cache :=
  { c with entries := c.entries.filter (fun p => decide (now - p.2.createdAt ≤ c.ttl)) }

/-- The ticker in `reapLoop` fires at times `ttl, 2*ttl, 3*ttl, ...` after
the cache is created; `reapTime ttl k` is the time of the `k`-th firing. -/
def reapTime (ttl k : Nat) : Nat := (k + 1) * ttl

/-- An atomic operation on the cache, as serialized by the mutex. -/
inductive Op where
  | add (key : String) (data : List Nat) (now : Nat)
  | get (key : String)
  | sweep (now : Nat)
deriving DecidableEq, Repr

/-- Effect of one atomic operation on the cache state (`Get` does not
modify the state). -/
def step (c : Cache) : Op → Cache
  | .add k v now => c.Add k v now
  | .get _ => c
  | .sweep now => c.sweep now

/-- Run a trace of serialized operations. -/
def run (c : Cache) (ops : List Op) : Cache := ops.foldl step c

/-- All sweeps the reaper performs up to (and including) time `t`:
one at every `reapTime ttl k` that is `≤ t`. -/
def sweepsUpTo (ttl t : Nat) : List Op :=
  (List.range (t / ttl)).map (fun k => Op.sweep (reapTime ttl k))

/-- State of a cache at time `t` when the only foreground operation was a
single `Add key v` at time `t0`. -/
def stateAt (ttl : Nat) (key : String) (v : List Nat) (t0 t : Nat) : Cache :=
  run ((New ttl).Add key v t0) (sweepsUpTo ttl t)

/-- `op` is an `Add` for key `k`. -/
def isAddOf : Op → String → Bool
  | .add k _ _, key => k == key
  | _, _ => false

/-- `op` is not a sweep that would expire an entry created at time `t`
under the given ttl. -/
def sweepFresh (op : Op) (t ttl : Nat) : Bool :=
  match op with
  | .sweep now => decide (now - t ≤ ttl)
  | _ => true

/-! ### Invariants used in the proofs -/

/-- The cache binds `k` to exactly the entry `e0`: `(k, e0)` is present and
is the only binding whose key is `k`. -/
def holdsKey (c : Cache) (k : String) (e0 : entry) : Prop :=
  (k, e0) ∈ c.entries ∧ ∀ q ∈ c.entries, q.1 = k → q = (k, e0)

/-- Any binding of `k` in the cache is the entry `e0` (there may be none). -/
def onlyKey (c : Cache) (k : String) (e0 : entry) : Prop :=
  ∀ q ∈ c.entries, q.1 = k → q = (k, e0)

/-- `k` has no binding in the cache. -/
def absentKey (c : Cache) (k : String) : Prop :=
  ∀ q ∈ c.entries, q.1 ≠ k

/-! ### Basic lemmas -/

theorem find?_filter_of_imp (p q : α → Bool) (l : List α)
    (h : ∀ x, p x = true → q x = true) :
    (l.filter q).find? p = l.find? p := by
  induction l with
  | nil => rfl
  | cons a l ih =>
    by_cases hq : q a = true
    · by_cases hp : p a = true
      · simp [List.filter_cons, hq, List.find?_cons, hp]
      · simp only [List.filter_cons, hq, if_true]
        rw [List.find?_cons_of_neg _ (by simp [hp]), List.find?_cons_of_neg _ (by simp [hp]), ih]
    · have hp : p a = false := by
        by_contra hc
        exact hq (h a (by revert hc; cases p a <;> simp))
      have hq' : q a = false := by revert hq; cases q a <;> simp
      simp only [List.filter_cons, hq', Bool.false_eq_true, if_false]
      rw [List.find?_cons_of_neg _ (by simp [hp]), ih]

theorem step_ttl (c : Cache) (op : Op) : (step c op).ttl = c.ttl := by
  cases op <;> rfl

theorem run_ttl (c : Cache) (ops : List Op) : (run c ops).ttl = c.ttl := by
  induction ops generalizing c with
  | nil => rfl
  | cons op ops ih => rw [run, List.foldl_cons, ← run, ih, step_ttl]

theorem find?_key_of_mem (l : List (String × entry)) (k : String) (e0 : entry)
    (hmem : (k, e0) ∈ l) (huniq : ∀ q ∈ l, q.1 = k → q = (k, e0)) :
    l.find? (fun p => p.1 == k) = some (k, e0) := by
  induction l with
  | nil => cases hmem
  | cons a l ih =>
    by_cases ha : a.1 = k
    · have : a = (k, e0) := huniq a (List.mem_cons_self a l) ha
      subst this
      exact List.find?_cons_of_pos _ (by simp)
    · have hmem' : (k, e0) ∈ l := by
        rcases List.mem_cons.mp hmem with h | h
        · exact absurd (congrArg Prod.fst h.symm) ha
        · exact h
      rw [List.find?_cons_of_neg _ (by simp [ha]),
        ih hmem' (fun q hq => huniq q (List.mem_cons_of_mem a hq))]

theorem Get_of_holdsKey {c : Cache} {k : String} {e0 : entry}
    (h : holdsKey c k e0) : c.Get k = (some e0.data, true) := by
  rw [Cache.Get, find?_key_of_mem c.entries k e0 h.1 h.2]

theorem find?_eq_none_of_absent {c : Cache} {k : String}
    (h : absentKey c k) : c.entries.find? (fun p => p.1 == k) = none := by
  rw [List.find?_eq_none]
  intro q hq
  simp [h q hq]

theorem Get_of_absent {c : Cache} {k : String}
    (h : absentKey c k) : c.Get k = (none, false) := by
  rw [Cache.Get, find?_eq_none_of_absent h]

theorem holdsKey_Add_self (c : Cache) (k : String) (v : List Nat) (now : Nat) :
    holdsKey (c.Add k v now) k ⟨now, v⟩ := by
  constructor
  · exact List.mem_cons_self _ _
  · intro q hq hqk
    rcases List.mem_cons.mp hq with h | h
    · exact h
    · have := (List.mem_filter.mp h).2
      simp [hqk] at this

theorem onlyKey_Add_other {c : Cache} {k : String} {e0 : entry}
    (h : onlyKey c k e0) (k' : String) (v : List Nat) (now : Nat) (hne : k' ≠ k) :
    onlyKey (c.Add k' v now) k e0 := by
  intro q hq hqk
  rcases List.mem_cons.mp hq with hh | hh
  · rw [hh] at hqk
    exact absurd hqk hne
  · exact h q (List.mem_of_mem_filter hh) hqk

theorem onlyKey_sweep {c : Cache} {k : String} {e0 : entry}
    (h : onlyKey c k e0) (now : Nat) : onlyKey (c.sweep now) k e0 := by
  intro q hq hqk
  exact h q (List.mem_of_mem_filter hq) hqk

theorem holdsKey_Add_other {c : Cache} {k : String} {e0 : entry}
    (h : holdsKey c k e0) (k' : String) (v : List Nat) (now : Nat) (hne : k' ≠ k) :
    holdsKey (c.Add k' v now) k e0 := by
  refine ⟨?_, onlyKey_Add_other h.2 k' v now hne⟩
  refine List.mem_cons_of_mem _ (List.mem_filter.mpr ⟨h.1, ?_⟩)
  simp only [Bool.not_eq_true', beq_eq_false_iff_ne, ne_eq]
  exact fun hkk => hne hkk.symm

theorem holdsKey_sweep {c : Cache} {k : String} {e0 : entry}
    (h : holdsKey c k e0) {now : Nat} (hfresh : now - e0.createdAt ≤ c.ttl) :
    holdsKey (c.sweep now) k e0 := by
  refine ⟨?_, onlyKey_sweep h.2 now⟩
  exact List.mem_filter.mpr ⟨h.1, by simpa using hfresh⟩

theorem absentKey_step {c : Cache} {k : String} {op : Op}
    (h : absentKey c k) (hop : isAddOf op k = false) : absentKey (step c op) k := by
  cases op with
  | add k' v now =>
    intro q hq
    rcases List.mem_cons.mp hq with hh | hh
    · rw [hh]
      simpa [isAddOf] using hop
    · exact h q (List.mem_of_mem_filter hh)
  | get _ => exact h
  | sweep now =>
    intro q hq
    exact h q (List.mem_of_mem_filter hq)

theorem absentKey_run {c : Cache} {k : String} {ops : List Op}
    (h : absentKey c k) (hops : ∀ op ∈ ops, isAddOf op k = false) :
    absentKey (run c ops) k := by
  induction ops generalizing c with
  | nil => exact h
  | cons op ops ih =>
    rw [run, List.foldl_cons, ← run]
    exact ih (absentKey_step h (hops op (List.mem_cons_self _ _)))
      (fun o ho => hops o (List.mem_cons_of_mem _ ho))

theorem holdsKey_step {c : Cache} {k : String} {e0 : entry} {op : Op}
    (h : holdsKey c k e0) (hop : isAddOf op k = false)
    (hfresh : sweepFresh op e0.createdAt c.ttl = true) :
    holdsKey (step c op) k e0 := by
  cases op with
  | add k' v now =>
    exact holdsKey_Add_other h k' v now (by simpa [isAddOf] using hop)
  | get _ => exact h
  | sweep now => exact holdsKey_sweep h (by simpa [sweepFresh] using hfresh)

theorem holdsKey_run {c : Cache} {k : String} {e0 : entry} {ops : List Op}
    (h : holdsKey c k e0)
    (hops : ∀ op ∈ ops, isAddOf op k = false ∧ sweepFresh op e0.createdAt c.ttl = true) :
    holdsKey (run c ops) k e0 := by
  induction ops generalizing c with
  | nil => exact h
  | cons op ops ih =>
    rw [run, List.foldl_cons, ← run]
    have h1 := hops op (List.mem_cons_self _ _)
    refine ih (holdsKey_step h h1.1 h1.2) (fun o ho => ?_)
    rw [step_ttl]
    exact hops o (List.mem_cons_of_mem _ ho)

theorem onlyKey_step {c : Cache} {k : String} {e0 : entry} {op : Op}
    (h : onlyKey c k e0) (hop : isAddOf op k = false) : onlyKey (step c op) k e0 := by
  cases op with
  | add k' v now => exact onlyKey_Add_other h k' v now (by simpa [isAddOf] using hop)
  | get _ => exact h
  | sweep now => exact onlyKey_sweep h now

theorem absent_after_stale_sweep {c : Cache} {k : String} {e0 : entry} {now : Nat}
    (h : onlyKey c k e0) (hstale : c.ttl < now - e0.createdAt) :
    absentKey (c.sweep now) k := by
  intro q hq hqk
  obtain ⟨hqmem, hqkeep⟩ := List.mem_filter.mp hq
  have hq0 : q = (k, e0) := h q hqmem hqk
  rw [hq0] at hqkeep
  simp at hqkeep
  omega

theorem absent_run_of_stale_sweep {c : Cache} {k : String} {e0 : entry} {ops : List Op} {m : Nat}
    (h : onlyKey c k e0) (hnoadd : ∀ op ∈ ops, isAddOf op k = false)
    (hm : Op.sweep m ∈ ops) (hstale : c.ttl < m - e0.createdAt) :
    absentKey (run c ops) k := by
  induction ops generalizing c with
  | nil => cases hm
  | cons op ops ih =>
    rw [run, List.foldl_cons, ← run]
    rcases List.mem_cons.mp hm with hh | hh
    · subst hh
      exact absentKey_run (absent_after_stale_sweep h hstale)
        (fun o ho => hnoadd o (List.mem_cons_of_mem _ ho))
    · refine ih (onlyKey_step h (hnoadd op (List.mem_cons_self _ _)))
        (fun o ho => hnoadd o (List.mem_cons_of_mem _ ho)) hh ?_
      rw [step_ttl]
      exact hstale

theorem countP_key_filter (l : List (String × entry)) (k : String) :
    (l.filter (fun p => !(p.1 == k))).countP (fun p => p.1 == k) = 0 := by
  rw [List.countP_eq_zero]
  intro q hq
  have := (List.mem_filter.mp hq).2
  simpa using this

/-! ### Claim theorems -/

/-- C1: for every key `k`, payload `v` and cache state, immediately after
`Add(k, v)` a call to `Get(k)` returns the payload `v` with `found = true`. -/
theorem add_get_roundtrip (c : Cache) (k : String) (v : List Nat) (now : Nat) :
    (c.Add k v now).Get k = (some v, true) :=
  Get_of_holdsKey (holdsKey_Add_self c k v now)

/-- C2: `Add(k, v1)` followed by `Add(k, v2)` leaves the cache in exactly the
state of a single `Add(k, v2)` at the second call's time: `Get(k)` returns
`(v2, true)`, the stored entry's `createdAt` is the second timestamp `t2`,
and the map holds exactly one binding for `k`. -/
theorem add_overwrite (c : Cache) (k : String) (v1 v2 : List Nat) (t1 t2 : Nat) :
    (c.Add k v1 t1).Add k v2 t2 = c.Add k v2 t2 ∧
    ((c.Add k v1 t1).Add k v2 t2).Get k = (some v2, true) ∧
    ((c.Add k v1 t1).Add k v2 t2).entries.find? (fun p => p.1 == k) = some (k, ⟨t2, v2⟩) ∧
    (((c.Add k v1 t1).Add k v2 t2).entries.countP (fun p => p.1 == k)) = 1 := by
  have hstate : (c.Add k v1 t1).Add k v2 t2 = c.Add k v2 t2 := by
    show Cache.mk _ _ = Cache.mk _ _
    rw [Cache.mk.injEq]
    refine ⟨?_, rfl⟩
    show (k, entry.mk t2 v2) ::
        (((k, entry.mk t1 v1) :: c.entries.filter (fun p => !(p.1 == k))).filter
          (fun p => !(p.1 == k))) =
      (k, entry.mk t2 v2) :: c.entries.filter (fun p => !(p.1 == k))
    rw [List.filter_cons]
    simp only [beq_self_eq_true, Bool.not_true, Bool.false_eq_true, if_false,
      List.filter_filter, Bool.and_self]
  refine ⟨hstate, ?_, ?_, ?_⟩
  · rw [hstate]
    exact add_get_roundtrip c k v2 t2
  · rw [hstate]
    exact find?_key_of_mem _ k ⟨t2, v2⟩ (holdsKey_Add_self c k v2 t2).1
      (holdsKey_Add_self c k v2 t2).2
  · rw [hstate]
    show List.countP _ ((k, entry.mk t2 v2) :: c.entries.filter (fun p => !(p.1 == k))) = 1
    rw [List.countP_cons, countP_key_filter]
    simp

/-- C3: a miss is reported as `(nil, false)`, never as an error, both for a
key that was never added and for a key whose entry the reaper deleted: on a
fresh cache `Get(k)` is `(nil, false)`; after any trace of operations
containing no `Add` for `k` (gets, sweeps, adds of other keys) it still is;
and when a cache binds `k` only to an entry older than the ttl, the sweep
that reaps it leaves `Get(k) = (nil, false)`, also after any further such
trace. -/
theorem never_added_get_miss (ttl : Nat) (ops : List Op) (k : String)
    (c : Cache) (e0 : entry) (now : Nat)
    (hnoadd : ∀ op ∈ ops, isAddOf op k = false)
    (hkey : onlyKey c k e0) (hstale : c.ttl < now - e0.createdAt) :
    (New ttl).Get k = (none, false) ∧
    (run (New ttl) ops).Get k = (none, false) ∧
    (c.sweep now).Get k = (none, false) ∧
    (run (c.sweep now) ops).Get k = (none, false) := by
  have habs : absentKey (New ttl) k := by
    intro q hq
    cases hq
  have hreaped : absentKey (c.sweep now) k := absent_after_stale_sweep hkey hstale
  exact ⟨Get_of_absent habs, Get_of_absent (absentKey_run habs hnoadd),
    Get_of_absent hreaped, Get_of_absent (absentKey_run hreaped hnoadd)⟩

theorem never_added_get_miss_witness :
    (∀ op ∈ [Op.sweep 5, Op.get "b", Op.add "b" [7] 2], isAddOf op "a" = false) ∧
    onlyKey (Cache.mk [("a", ⟨0, [1]⟩)] 3) "a" ⟨0, [1]⟩ ∧
    (Cache.mk [("a", ⟨0, [1]⟩)] 3).ttl < 10 - (0 : Nat) ∧
    ((New 5).Get "a" = (none, false) ∧
      (run (New 5) [Op.sweep 5, Op.get "b", Op.add "b" [7] 2]).Get "a" = (none, false) ∧
      ((Cache.mk [("a", ⟨0, [1]⟩)] 3).sweep 10).Get "a" = (none, false) ∧
      (run ((Cache.mk [("a", ⟨0, [1]⟩)] 3).sweep 10)
        [Op.sweep 5, Op.get "b", Op.add "b" [7] 2]).Get "a" = (none, false)) :=
  ⟨by decide, by unfold onlyKey; decide, by decide,
    never_added_get_miss 5 [Op.sweep 5, Op.get "b", Op.add "b" [7] 2] "a"
      (Cache.mk [("a", ⟨0, [1]⟩)] 3) ⟨0, [1]⟩ 10 (by decide)
      (by unfold onlyKey; decide) (by decide)⟩

/-- C4: `Get`'s result depends only on presence in the entry map, never on
the entry's age or the current time: whenever the map contains a binding for
`k`, `Get(k)` returns that binding's payload with `true`, even at a time
`now` at which the entry's age already exceeds the ttl. -/
theorem get_ignores_age (c : Cache) (k : String) (q : String × entry) (now : Nat)
    (hfind : c.entries.find? (fun p => p.1 == k) = some q)
    (hstale : c.ttl < now - q.2.createdAt) :
    c.Get k = (some q.2.data, true) := by
  rw [Cache.Get, hfind]

theorem get_ignores_age_witness :
    (Cache.mk [("a", ⟨0, [1, 2]⟩)] 3).entries.find? (fun p => p.1 == "a") =
        some ("a", ⟨0, [1, 2]⟩) ∧
    (Cache.mk [("a", ⟨0, [1, 2]⟩)] 3).ttl < 10 - (0 : Nat) ∧
    (Cache.mk [("a", ⟨0, [1, 2]⟩)] 3).Get "a" = (some [1, 2], true) :=
  ⟨by decide, by decide,
    get_ignores_age (Cache.mk [("a", ⟨0, [1, 2]⟩)] 3) "a" ("a", ⟨0, [1, 2]⟩) 10
      (by decide) (by decide)⟩

/-- C5: one reaper sweep at time `now` deletes exactly the entries with
`now - createdAt > ttl` and keeps every entry with age `≤ ttl` unchanged
(same key, payload and timestamp), it does not change the ttl, and
consecutive reaper firings are exactly `ttl` apart. -/
theorem sweep_deletes_exactly_expired (c : Cache) (now : Nat) (q : String × entry)
    (ttl k : Nat) :
    (q ∈ (c.sweep now).entries ↔ q ∈ c.entries ∧ now - q.2.createdAt ≤ c.ttl) ∧
    (c.sweep now).ttl = c.ttl ∧
    reapTime ttl (k + 1) = reapTime ttl k + ttl := by
  refine ⟨?_, rfl, ?_⟩
  · show q ∈ c.entries.filter _ ↔ _
    rw [List.mem_filter]
    simp
  · show (k + 1 + 1) * ttl = (k + 1) * ttl + ttl
    ring

theorem mem_sweepsUpTo {ttl t : Nat} {op : Op} (h : op ∈ sweepsUpTo ttl t) :
    ∃ j, j < t / ttl ∧ op = Op.sweep ((j + 1) * ttl) := by
  obtain ⟨j, hj, hop⟩ := List.mem_map.mp h
  exact ⟨j, List.mem_range.mp hj, hop.symm⟩

/-- C6: an entry added at time `t0` and never overwritten, under the reaper
schedule that sweeps at every multiple of `ttl` and deletes entries of age
strictly greater than `ttl`, is still returned by `Get` at every time
`t ≤ t0 + ttl`, and is gone at every time `t > t0 + 2*ttl`. -/
theorem bounded_staleness (ttl t0 t : Nat) (k : String) (v : List Nat)
    (httl : 0 < ttl) :
    (t ≤ t0 + ttl → (stateAt ttl k v t0 t).Get k = (some v, true)) ∧
    (t0 + 2 * ttl < t → (stateAt ttl k v t0 t).Get k = (none, false)) := by
  have hhold := holdsKey_Add_self (New ttl) k v t0
  have hnoadd : ∀ op ∈ sweepsUpTo ttl t, isAddOf op k = false := by
    intro op hop
    obtain ⟨j, _, hj⟩ := mem_sweepsUpTo hop
    rw [hj]
    rfl
  constructor
  · intro ht
    refine Get_of_holdsKey (holdsKey_run hhold ?_)
    intro op hop
    obtain ⟨j, hjlt, hj⟩ := mem_sweepsUpTo hop
    refine ⟨hnoadd op hop, ?_⟩
    rw [hj]
    show decide ((j + 1) * ttl - t0 ≤ ttl) = true
    rw [decide_eq_true_iff]
    have h1 : (j + 1) * ttl ≤ (t / ttl) * ttl :=
      Nat.mul_le_mul_right _ (Nat.succ_le_of_lt hjlt)
    have h2 : (t / ttl) * ttl ≤ t := Nat.div_mul_le_self t ttl
    omega
  · intro ht
    have hx : ttl * (t0 / ttl) + t0 % ttl = t0 := Nat.div_add_mod t0 ttl
    have hr : t0 % ttl < ttl := Nat.mod_lt t0 httl
    have hmval : (t0 / ttl + 1 + 1) * ttl = ttl * (t0 / ttl) + 2 * ttl := by ring
    have hmt : (t0 / ttl + 1 + 1) * ttl ≤ t := by omega
    have hi : t0 / ttl + 1 < t / ttl := by
      have := (Nat.le_div_iff_mul_le httl).mpr hmt
      omega
    have hmem : Op.sweep ((t0 / ttl + 1 + 1) * ttl) ∈ sweepsUpTo ttl t :=
      List.mem_map.mpr ⟨t0 / ttl + 1, List.mem_range.mpr hi, rfl⟩
    refine Get_of_absent (absent_run_of_stale_sweep hhold.2 hnoadd hmem ?_)
    show ttl < (t0 / ttl + 1 + 1) * ttl - t0
    omega

theorem bounded_staleness_witness :
    0 < 2 ∧
    ((10 ≤ 1 + 2 → (stateAt 2 "a" [1] 1 10).Get "a" = (some [1], true)) ∧
      (1 + 2 * 2 < 10 → (stateAt 2 "a" [1] 1 10).Get "a" = (none, false))) :=
  ⟨by decide, bounded_staleness 2 1 10 "a" [1] (by decide)⟩

/-! ### Fetch layer (`Client.fetchWithCache` in `internal/pokeapi`) -/

/-- Outcome of the `http.Get` call in `fetchWithCache`: a transport error,
or a response with a status code and a body (`none` models a body whose
`io.ReadAll` fails). -/
inductive FetchOutcome where
  | netError
  | httpResponse (status : Nat) (body : Option (List Nat))
deriving DecidableEq, Repr

/-- `Client.fetchWithCache(url)`: check the cache first; on a hit return the
cached bytes without touching the network; otherwise fetch, propagate a
network error, a non-200 status or a body-read failure as an error leaving
the cache unchanged, and on a 200 response with readable body store it with
`Add` and return it.  The third component records whether the network was
used. -/
def fetchWithCache (c : Cache) (url : String) (net : FetchOutcome) (now : Nat) :
    Except String (List Nat) × Cache × Bool :=
  let r := c.Get url
  if r.2 = true then
    (Except.ok (r.1.getD []), c, false)
  else
    match net with
    | FetchOutcome.netError => (Except.error "failed to fetch data", c, true)
    | FetchOutcome.httpResponse status body =>
      if status ≠ 200 then
        (Except.error "API returned non-OK status", c, true)
      else
        match body with
        | none => (Except.error "failed to read response", c, true)
        | some data => (Except.ok data, c.Add url data now, true)

/-- C7: `fetchWithCache` consults the cache before the network: on a hit it
returns the cached payload without fetching and without changing the cache;
on a miss, a network error, a non-200 status or an unreadable body yield an
error with the cache unchanged, and only a 200 response with body `data`
calls `Add url data` and returns the body. -/
theorem fetchWithCache_spec (c : Cache) (url : String) (net : FetchOutcome) (now : Nat) :
    (∀ d, c.Get url = (some d, true) →
      fetchWithCache c url net now = (Except.ok d, c, false)) ∧
    (c.Get url = (none, false) →
      (net = FetchOutcome.netError →
        fetchWithCache c url net now = (Except.error "failed to fetch data", c, true)) ∧
      (∀ status body, net = FetchOutcome.httpResponse status body → status ≠ 200 →
        fetchWithCache c url net now = (Except.error "API returned non-OK status", c, true)) ∧
      (net = FetchOutcome.httpResponse 200 none →
        fetchWithCache c url net now = (Except.error "failed to read response", c, true)) ∧
      (∀ data, net = FetchOutcome.httpResponse 200 (some data) →
        fetchWithCache c url net now = (Except.ok data, c.Add url data now, true))) := by
  constructor
  · intro d hd
    unfold fetchWithCache
    rw [hd]
    simp
  · intro hmiss
    refine ⟨?_, ?_, ?_, ?_⟩
    · intro hnet
      unfold fetchWithCache
      rw [hmiss, hnet]
      simp
    · intro status body hnet hstatus
      unfold fetchWithCache
      rw [hmiss, hnet]
      simp [hstatus]
    · intro hnet
      unfold fetchWithCache
      rw [hmiss, hnet]
      simp
    · intro data hnet
      unfold fetchWithCache
      rw [hmiss, hnet]
      simp

theorem fetchWithCache_spec_witness :
    (New 5).Get "u" = (none, false) ∧
    fetchWithCache (New 5) "u" (FetchOutcome.httpResponse 200 (some [3, 4])) 7 =
      (Except.ok [3, 4], (New 5).Add "u" [3, 4] 7, true) :=
  ⟨by decide,
    ((fetchWithCache_spec (New 5) "u" (FetchOutcome.httpResponse 200 (some [3, 4])) 7).2
      (by decide)).2.2.2 [3, 4] rfl⟩

/-- C8: in any serialized interleaving (adds of other keys, arbitrary gets,
reaper sweeps) following `Add(k, v)` at time `t`, as long as no later `Add`
targets `k` and no sweep sees the entry older than the ttl, `Get(k)` still
returns `(v, true)`: no entry is lost. -/
theorem concurrent_no_lost_entries (c : Cache) (k : String) (v : List Nat) (t : Nat)
    (post : List Op)
    (hnoadd : ∀ op ∈ post, isAddOf op k = false)
    (hfresh : ∀ op ∈ post, sweepFresh op t c.ttl = true) :
    (run (c.Add k v t) post).Get k = (some v, true) := by
  refine Get_of_holdsKey (holdsKey_run (holdsKey_Add_self c k v t) ?_)
  intro op hop
  exact ⟨hnoadd op hop, hfresh op hop⟩

theorem concurrent_no_lost_entries_witness :
    (∀ op ∈ [Op.get "a", Op.add "b" [9] 3, Op.sweep 5, Op.get "b"],
      isAddOf op "a" = false) ∧
    (∀ op ∈ [Op.get "a", Op.add "b" [9] 3, Op.sweep 5, Op.get "b"],
      sweepFresh op 1 (New 5).ttl = true) ∧
    (run ((New 5).Add "a" [1, 2] 1)
        [Op.get "a", Op.add "b" [9] 3, Op.sweep 5, Op.get "b"]).Get "a" =
      (some [1, 2], true) :=
  ⟨by decide, by decide,
    concurrent_no_lost_entries (New 5) "a" [1, 2] 1
      [Op.get "a", Op.add "b" [9] 3, Op.sweep 5, Op.get "b"] (by decide) (by decide)⟩

/-- C9: `Get` is read-only — in the trace semantics a `get` step leaves the
state (entry map and ttl) unchanged — and `Add k` is local to its key: it
leaves the ttl and the binding of every other key `k'` untouched (same
`find?` result, hence the same `Get` result). -/
theorem get_readonly_add_frame (c : Cache) (k k' : String) (v : List Nat) (now : Nat)
    (hne : k' ≠ k) :
    step c (Op.get k) = c ∧
    (c.Add k v now).ttl = c.ttl ∧
    (c.Add k v now).entries.find? (fun p => p.1 == k') =
      c.entries.find? (fun p => p.1 == k') ∧
    (c.Add k v now).Get k' = c.Get k' := by
  have hfind : (c.Add k v now).entries.find? (fun p => p.1 == k') =
      c.entries.find? (fun p => p.1 == k') := by
    show List.find? _ ((k, entry.mk now v) :: c.entries.filter (fun p => !(p.1 == k))) = _
    rw [List.find?_cons_of_neg _ (by
      simp only [beq_iff_eq]
      exact fun h => hne h.symm)]
    exact find?_filter_of_imp _ _ c.entries (by
      intro x hx
      simp only [beq_iff_eq] at hx
      simp [hx, hne])
  exact ⟨rfl, rfl, hfind, by rw [Cache.Get, Cache.Get, hfind]⟩

theorem get_readonly_add_frame_witness :
    ("b" : String) ≠ "a" ∧
    (step (Cache.mk [("b", ⟨0, [5]⟩)] 9) (Op.get "a") = Cache.mk [("b", ⟨0, [5]⟩)] 9 ∧
      ((Cache.mk [("b", ⟨0, [5]⟩)] 9).Add "a" [1] 4).ttl = (Cache.mk [("b", ⟨0, [5]⟩)] 9).ttl ∧
      ((Cache.mk [("b", ⟨0, [5]⟩)] 9).Add "a" [1] 4).entries.find? (fun p => p.1 == "b") =
        (Cache.mk [("b", ⟨0, [5]⟩)] 9).entries.find? (fun p => p.1 == "b") ∧
      ((Cache.mk [("b", ⟨0, [5]⟩)] 9).Add "a" [1] 4).Get "b" =
        (Cache.mk [("b", ⟨0, [5]⟩)] 9).Get "b") :=
  ⟨by decide, get_readonly_add_frame (Cache.mk [("b", ⟨0, [5]⟩)] 9) "a" "b" [1] 4 (by decide)⟩

/-! ### REPL catch command (`commandCatch` in package `main`) -/

/-- The fields of the `Pokemon` record that the REPL commands read
(identifier, name, base experience and the inspect-display numbers); the
remaining JSON fields carry no logic. -/
structure Pokemon where
  ID : Int
  Name : String
  BaseExperience : Int
  Height : Int
  Weight : Int
deriving DecidableEq, Repr

/-- `const maxBaseExp = 400` in `commandCatch`. -/
def maxBaseExp : Nat := 400

/-- `commandCatch` after a successful fetch of `pokemon`: clamp the base
experience at `maxBaseExp`, roll `rand.Intn(maxBaseExp)` (so
`0 ≤ roll < 400`), and on `roll >= catchThreshold` store the Pokemon in the
pokedex map under the requested name; returns the updated pokedex and
whether the catch succeeded. -/
def commandCatch (pokedex : List (String × Pokemon)) (pokemonName : String)
    (pokemon : Pokemon) (roll : Nat) : List (String × Pokemon) × Bool :=
  let catchThreshold := min pokemon.BaseExperience (maxBaseExp : Int)
  if (roll : Int) ≥ catchThreshold then
    ((pokemonName, pokemon) :: pokedex.filter (fun q => !(q.1 == pokemonName)), true)
  else
    (pokedex, false)

/-- C10: the Pokemon is caught exactly when the roll (uniform in
`[0, 400)`) is at least `min(BaseExperience, 400)`; hence a Pokemon with
`BaseExperience ≥ 400` is never caught — for every possible roll the
pokedex is returned unchanged with `caught = false`. -/
theorem catch_threshold_spec (dex : List (String × Pokemon)) (nm : String)
    (p : Pokemon) (roll : Nat) (hroll : roll < maxBaseExp) :
    ((commandCatch dex nm p roll).2 = true ↔
      (roll : Int) ≥ min p.BaseExperience 400) ∧
    ((400 : Int) ≤ p.BaseExperience → commandCatch dex nm p roll = (dex, false)) := by
  have hclamp : (maxBaseExp : Int) = 400 := by
    rw [maxBaseExp]
    rfl
  constructor
  · unfold commandCatch
    rw [hclamp]
    by_cases h : (roll : Int) ≥ min p.BaseExperience 400
    · simp [h]
    · simp [h]
  · intro hbig
    unfold commandCatch
    rw [hclamp, min_eq_right hbig, if_neg]
    rw [maxBaseExp] at hroll
    push_neg
    exact_mod_cast hroll

theorem catch_threshold_spec_witness :
    399 < maxBaseExp ∧
    (((commandCatch [] "mewtwo" (Pokemon.mk 150 "mewtwo" 500 2 3) 399).2 = true ↔
        (399 : Int) ≥ min (Pokemon.mk 150 "mewtwo" 500 2 3).BaseExperience 400) ∧
      ((400 : Int) ≤ (Pokemon.mk 150 "mewtwo" 500 2 3).BaseExperience →
        commandCatch [] "mewtwo" (Pokemon.mk 150 "mewtwo" 500 2 3) 399 = ([], false))) :=
  ⟨by decide, catch_threshold_spec [] "mewtwo" (Pokemon.mk 150 "mewtwo" 500 2 3) 399
    (by decide)⟩
